import Mathlib

/-
Verification development for the Trisonica data-logger repository.

The repository contains four platform variants (linux, mac, windows, pi) of the
same ingestion-parsing-statistics pipeline.  This file gives a shallow embedding
of the pipeline's pure core, translated from the Python source:

* `parse_data_line`   — src/linux/datalogger.py, lines 322-344 (identical in all
  four variants up to the surrounding class);
* `update_csv_columns`, `write_csv_row` — src/linux/datalogger.py, lines 346-369;
* `calculate_statistics` — src/linux/datalogger.py, lines 371-392 (window
  capacity 150; mac uses 100 and windows 200 with otherwise identical bodies);
* `piUpdateValue` / `piReportedMean` — src/pi/datalogger.py, `update_statistics`
  (lines 223-247) and the pure mean/std computation of `save_statistics`
  (lines 249-273), whose mean is cumulative rather than windowed;
* `pyFloat?` — a model of Python's `float(str)` conversion restricted to the
  finite decimal/exponent literal grammar (the special tokens inf/infinity/nan
  and underscore digit separators are outside the model, which is otherwise
  faithful: optional surrounding whitespace, optional sign, decimal mantissa,
  optional exponent); numbers are modelled as exact rationals `ℚ`.

Strings are modelled as `List Char`; Python dicts as insertion-ordered
association lists; the data-log file as the list of emitted lines, each line
tagged as a header line or a data row with its field list (joining the fields
with commas is the only step elided).  A Python function body with no `return`
statement returns `None`; that value is modelled by `PyRet.pyNone`.
-/

abbrev Str := List Char

/-- Whitespace characters recognised by Python's `str.strip` / `str.split`. -/
def isPySpace (c : Char) : Bool :=
  c = ' ' || c = '\t' || c = '\n' || c = '\r' || c = '\x0b' || c = '\x0c'

/-- Remove leading whitespace (left part of Python `str.strip`). -/
def lstrip (s : Str) : Str := s.dropWhile isPySpace

/-- Remove trailing whitespace (right part of Python `str.strip`). -/
def rstrip (s : Str) : Str := (s.reverse.dropWhile isPySpace).reverse

/-- Python `str.strip()`: remove whitespace from both ends. -/
def pyStrip (s : Str) : Str := rstrip (lstrip s)

/-- Python `str.split(',')`: split on every comma, keeping empty segments. -/
def splitOnComma : Str → List Str
  | [] => [[]]
  | c :: rest =>
    if c = ',' then [] :: splitOnComma rest
    else
      match splitOnComma rest with
      | [] => [[c]]
      | seg :: segs => (c :: seg) :: segs

/-- Python `str.split(' ', 1)` when a space is present: the text before the
first space and the text after it; `none` when the string has no space. -/
def splitFirstSpace : Str → Option (Str × Str)
  | [] => Option.none
  | c :: rest =>
    if c = ' ' then some ([], rest)
    else (splitFirstSpace rest).map (fun p => (c :: p.1, p.2))

/-- Helper for `pySplitWs`: accumulates the current token (reversed). -/
def wsTokensAux : Str → Str → List Str
  | [], acc => if acc = [] then [] else [acc.reverse]
  | c :: rest, acc =>
    if isPySpace c then
      if acc = [] then wsTokensAux rest [] else acc.reverse :: wsTokensAux rest []
    else wsTokensAux rest (c :: acc)

/-- Python `str.split()` with no argument: whitespace-run tokenisation,
producing no empty tokens. -/
def pySplitWs (s : Str) : List Str := wsTokensAux s []

/-- Lookup in an insertion-ordered association list (Python dict read). -/
def alGet {β : Type} : List (Str × β) → Str → Option β
  | [], _ => Option.none
  | (k', v) :: m, k => if k' = k then some v else alGet m k

/-- Replace the value stored under a key, keeping its position. -/
def alUpdate {β : Type} : List (Str × β) → Str → β → List (Str × β)
  | [], _, _ => []
  | (k', v') :: m, k, v =>
    if k' = k then (k, v) :: alUpdate m k v else (k', v') :: alUpdate m k v

/-- Python dict assignment `d[k] = v`: update in place if the key is present,
otherwise append at the end (insertion order). -/
def alSet {β : Type} (m : List (Str × β)) (k : Str) (v : β) : List (Str × β) :=
  if (alGet m k).isSome then alUpdate m k v else m ++ [(k, v)]

/-- The token-pairing loop of the no-comma branch of `parse_data_line`
(src/linux/datalogger.py lines 336-339): consecutive tokens are paired as
(name, value) into the dict; a trailing unpaired token is dropped. -/
def pairTokens : List (Str × Str) → List Str → List (Str × Str)
  | m, a :: b :: rest => pairTokens (alSet m a b) rest
  | m, _ => m

/-- Shallow embedding of `parse_data_line` (src/linux/datalogger.py lines
322-344).  If the line contains a comma it is stripped and split on commas;
each segment is stripped, and if it contains a space it is split at the first
space into key and value, which are stripped and stored.  Otherwise the line
is stripped and whitespace-tokenised, and tokens are paired consecutively.
The Lean function is total: the `try/except` of the source can never fire,
and malformed input simply yields fewer or no entries. -/
def parse_data_line (line : Str) : List (Str × Str) :=
  if ',' ∈ line then
    (splitOnComma (pyStrip line)).foldl
      (fun m seg =>
        match splitFirstSpace (pyStrip seg) with
        | some kv => alSet m (pyStrip kv.1) (pyStrip kv.2)
        | Option.none => m)
      []
  else
    pairTokens [] (pySplitWs (pyStrip line))

/-- Modelled from the spec (§4.1), for comparison with `parse_data_line`:
"if the line contains a comma, split on commas into segments; within each
segment, split on the first space into (name, value) and keep only segments
that yield exactly two non-empty tokens".  A token is a trimmed part; the
segment is trimmed first (the spec's own end-to-end example "S 5.0, T 20.0"
requires segments to be trimmed before the first-space split). -/
def specSegment (seg : Str) : Option (Str × Str) :=
  match splitFirstSpace (pyStrip seg) with
  | some kv =>
    if pyStrip kv.1 ≠ [] ∧ pyStrip kv.2 ≠ [] then some (pyStrip kv.1, pyStrip kv.2)
    else Option.none
  | Option.none => Option.none

/-- Modelled from the spec (§4.1): the LineParser algorithm as the spec words
it.  "If the line has no comma, split on whitespace into tokens and pair them
consecutively (token[2i], token[2i+1]); trailing unpaired tokens are dropped";
the result is an ordered mapping, so a repeated name keeps its first position
with the latest value. -/
def parse_spec (line : Str) : List (Str × Str) :=
  if ',' ∈ line then
    (splitOnComma (pyStrip line)).foldl
      (fun m seg =>
        match specSegment seg with
        | some kv => alSet m kv.1 kv.2
        | Option.none => m)
      []
  else
    pairTokens [] (pySplitWs (pyStrip line))

/-- Digit list to natural number. -/
def digitsToNat (ds : List Char) : ℕ :=
  ds.foldl (fun n c => 10 * n + (c.toNat - 48)) 0

/-- Exponent part of a Python float literal: `e`/`E`, optional sign, digits. -/
def pyFloatExp (base : ℚ) (rest : Str) : Option ℚ :=
  match rest with
  | [] => some base
  | e :: r =>
    if e = 'e' ∨ e = 'E' then
      let sr : ℤ × Str :=
        match r with
        | '+' :: t => (1, t)
        | '-' :: t => (-1, t)
        | _ => (1, r)
      let ed := sr.2.takeWhile (fun c => c.isDigit)
      let r3 := sr.2.dropWhile (fun c => c.isDigit)
      if ed = [] ∨ r3 ≠ [] then Option.none
      else some (base * (10 : ℚ) ^ (sr.1 * (digitsToNat ed : ℤ)))
    else Option.none

/-- Model of Python `float(raw)` restricted to finite decimal literals:
surrounding whitespace is ignored, then an optional sign, then either
digits with an optional fraction or a leading-dot fraction, then an optional
exponent.  Returns the exact rational value, or `none` when `float` would
raise `ValueError`.  (The special tokens `inf`/`infinity`/`nan` and underscore
digit separators, which Python also accepts, are outside this model.) -/
def pyFloat? (s : Str) : Option ℚ :=
  let s1 := pyStrip s
  let sgn : ℚ × Str :=
    match s1 with
    | '+' :: r => (1, r)
    | '-' :: r => (-1, r)
    | _ => (1, s1)
  let ip := sgn.2.takeWhile (fun c => c.isDigit)
  let r1 := sgn.2.dropWhile (fun c => c.isDigit)
  match r1 with
  | '.' :: r2 =>
    let fp := r2.takeWhile (fun c => c.isDigit)
    let r3 := r2.dropWhile (fun c => c.isDigit)
    if ip = [] ∧ fp = [] then Option.none
    else
      (pyFloatExp ((digitsToNat ip : ℚ) + (digitsToNat fp : ℚ) / (10 : ℚ) ^ fp.length) r3).map
        (fun q => sgn.1 * q)
  | _ =>
    if ip = [] then Option.none
    else (pyFloatExp (digitsToNat ip : ℚ) r1).map (fun q => sgn.1 * q)

/-- The synthetic first column of the data log (src/linux/datalogger.py line 87). -/
def tsCol : Str := "timestamp".toList

/-- One line of the data-log file: either the header line (carrying the column
names it declares) or a data row (carrying its field values). -/
inductive OutLine : Type
  | header (cols : List Str)
  | row (fields : List Str)
deriving DecidableEq

/-- Number of comma-separated fields the line carries. -/
def lineLen : OutLine → ℕ
  | OutLine.header cols => cols.length
  | OutLine.row fields => fields.length

/-- Whether a line of the data log is the header line. -/
def isHeaderLine : OutLine → Bool
  | OutLine.header _ => true
  | OutLine.row _ => false

/-- Return value of a Python function: `None` for a body with no `return`
statement, or a boolean.  Python's `None` is falsy. -/
inductive PyRet : Type
  | pyNone
  | pyBool (b : Bool)
deriving DecidableEq

/-- Python truthiness of a `PyRet` value. -/
def PyRet.truthy : PyRet → Bool
  | PyRet.pyNone => false
  | PyRet.pyBool b => b

/-- The mutable CSV state of the logger: the discovered column list, the
headers-written flag, and the lines written to the data log so far
(src/linux/datalogger.py lines 82-88). -/
structure LogState : Type where
  csv_columns : List Str
  csv_headers_written : Bool
  log_lines : List OutLine
deriving DecidableEq

/-- Initial CSV state: columns `['timestamp']`, no header written, empty file. -/
def initLog : LogState := ⟨[tsCol], false, []⟩

/-- The column-scan loop of `update_csv_columns` (src/linux/datalogger.py lines
348-352): append each key not already present, in first-seen order, and record
in a flag whether anything was appended. -/
def observeColumns (cols : List Str) (parsed : List (Str × Str)) : List Str × Bool :=
  parsed.foldl
    (fun acc kv => if kv.1 ∈ acc.1 then acc else (acc.1 ++ [kv.1], true))
    (cols, false)

/-- The new names `observeColumns` appends for a given key list, in first-seen
order (an independent recursive characterisation used in theorem statements). -/
def firstSeenNew (cols : List Str) : List Str → List Str
  | [] => []
  | k :: ks => if k ∈ cols then firstSeenNew cols ks else k :: firstSeenNew (cols ++ [k]) ks

/-- Shallow embedding of `update_csv_columns` (src/linux/datalogger.py lines
346-356).  Appends unseen keys to the column list; on the first ever call also
writes the header line and sets the flag.  The Python body has no `return`
statement, so the function returns `None` — the local `new_columns` flag is
computed but never returned. -/
def update_csv_columns (st : LogState) (parsed : List (Str × Str)) : LogState × PyRet :=
  let ob := observeColumns st.csv_columns parsed
  let st1 : LogState := { st with csv_columns := ob.1 }
  let st2 : LogState :=
    if st1.csv_headers_written then st1
    else { st1 with
            log_lines := st1.log_lines ++ [OutLine.header st1.csv_columns],
            csv_headers_written := true }
  (st2, PyRet.pyNone)

/-- The field list of one data row (src/linux/datalogger.py lines 360-366):
one field per current column — the timestamp for the `timestamp` column,
otherwise the parsed value or the empty string when absent. -/
def rowFields (cols : List Str) (ts : Str) (parsed : List (Str × Str)) : List Str :=
  cols.map (fun col => if col = tsCol then ts else (alGet parsed col).getD [])

/-- Shallow embedding of `write_csv_row` (src/linux/datalogger.py lines
358-369): appends one data row, built over the columns current at write time. -/
def write_csv_row (st : LogState) (ts : Str) (parsed : List (Str × Str)) : LogState :=
  { st with log_lines := st.log_lines ++ [OutLine.row (rowFields st.csv_columns ts parsed)] }

/-- One CSV cycle as driven by `read_serial_data` (src/linux/datalogger.py
lines 407-408): `update_csv_columns` then `write_csv_row`. -/
def csvStep (st : LogState) (r : Str × List (Str × Str)) : LogState :=
  write_csv_row (update_csv_columns st r.2).1 r.1 r.2

/-- Run the CSV layer over a whole session of (timestamp, parsed fields)
records, starting from the initial state. -/
def runCsv (rs : List (Str × List (Str × Str))) : LogState :=
  rs.foldl csvStep initLog

/-- Per-parameter statistics record (src/linux/datalogger.py lines 61-69).
The source stores `std_dev`; since the square root of a rational is not a
rational, the embedding tracks the exact `variance` (the square of the
source's `std_dev`); theorems state facts about `Real.sqrt variance` where
the standard deviation itself is meant. -/
structure Statistics : Type where
  min_val : ℚ
  max_val : ℚ
  mean_val : ℚ
  current_val : ℚ
  variance : ℚ
  count : ℕ
  values : List ℚ
deriving DecidableEq

/-- A fresh `Statistics()` object (all zeroes, empty window). -/
def stat0 : Statistics := ⟨0, 0, 0, 0, 0, 0, []⟩

/-- Appending to a `deque(maxlen := K)`: the new element is appended and the
oldest elements beyond capacity K are evicted from the front. -/
def dequeAppend (K : ℕ) (l : List ℚ) (x : ℚ) : List ℚ :=
  (l ++ [x]).drop ((l ++ [x]).length - K)

/-- Window capacity of the linux variant (`deque(maxlen=150)`,
src/linux/datalogger.py line 69; mac uses 100, windows 200). -/
def winCap : ℕ := 150

/-- The per-parameter body of `calculate_statistics` (src/linux/datalogger.py
lines 371-392): set `current_val`, bump the all-time `count`, append the value
to the bounded window; on the first observation min = max = mean = value and
std_dev = 0, otherwise extend min/max, recompute the mean over the current
window contents, and when the window holds more than one value recompute the
population variance over the window from that mean. -/
def statUpdate (st : Statistics) (value : ℚ) : Statistics :=
  let vals := dequeAppend winCap st.values value
  if st.count + 1 = 1 then
    { min_val := value, max_val := value, mean_val := value, current_val := value,
      variance := 0, count := st.count + 1, values := vals }
  else
    let m := vals.sum / (vals.length : ℚ)
    { min_val := min st.min_val value, max_val := max st.max_val value,
      mean_val := m, current_val := value,
      variance :=
        if 1 < vals.length then (vals.map (fun x => (x - m) ^ 2)).sum / (vals.length : ℚ)
        else st.variance,
      count := st.count + 1, values := vals }

/-- Shallow embedding of `calculate_statistics` at the map level: a missing key
is first given a fresh `Statistics()` (appended at the end of the dict), which
is then updated in place. -/
def calculate_statistics (stats : List (Str × Statistics)) (key : Str) (value : ℚ)
    : List (Str × Statistics) :=
  alSet stats key (statUpdate ((alGet stats key).getD stat0) value)

/-- Feed a list of numeric values for one parameter through
`calculate_statistics`, starting from an empty statistics table. -/
def feedKey (k : Str) (vs : List ℚ) : List (Str × Statistics) :=
  vs.foldl (fun m v => calculate_statistics m k v) []

/-- The per-parameter statistics after feeding `vs` for key `k`. -/
def statAfter (k : Str) (vs : List ℚ) : Statistics :=
  (alGet (feedKey k vs) k).getD stat0

/-- Iterate the per-parameter update from a fresh record. -/
def feedStat (vs : List ℚ) : Statistics := vs.foldl statUpdate stat0

/-- The bounded window retained after feeding `vs`: the most recent `winCap`
values. -/
def windowOf (vs : List ℚ) : List ℚ := vs.drop (vs.length - winCap)

/-- Per-field statistics dispatch of `read_serial_data` (src/linux/datalogger.py
lines 410-423): try `float(value_str)`; on success update the statistics, on
`ValueError` do nothing. -/
def statsFieldStep (m : List (Str × Statistics)) (kv : Str × Str) : List (Str × Statistics) :=
  match pyFloat? kv.2 with
  | some v => calculate_statistics m kv.1 v
  | Option.none => m

/-- The statistics loop over all parsed fields of one record. -/
def updateStatsFromParsed (m : List (Str × Statistics)) (parsed : List (Str × Str))
    : List (Str × Statistics) :=
  parsed.foldl statsFieldStep m

/-- Modelled from the spec (§4.4): the population (divide-by-N) variance of a
list of values, for comparison with the engine's computation. -/
def popVariance (l : List ℚ) : ℚ :=
  (l.map (fun x => (x - l.sum / (l.length : ℚ)) ^ 2)).sum / (l.length : ℚ)

/-- Modelled from the spec (§4.4): the sample (divide-by-N-1) variance, the
form the spec says the engine does NOT use. -/
def sampleVariance (l : List ℚ) : ℚ :=
  (l.map (fun x => (x - l.sum / (l.length : ℚ)) ^ 2)).sum / ((l.length : ℚ) - 1)

/-- One full ingestion cycle for one raw line (src/linux/datalogger.py lines
394-432, pure part): parse, update columns (possibly emitting the header),
write the row, update per-parameter statistics. -/
def pipeStep (st : LogState × List (Str × Statistics)) (r : Str × Str)
    : LogState × List (Str × Statistics) :=
  let parsed := parse_data_line r.2
  (write_csv_row (update_csv_columns st.1 parsed).1 r.1 parsed,
   updateStatsFromParsed st.2 parsed)

/-- Run the whole pipeline over a session of (timestamp, raw line) inputs. -/
def runPipeline (rs : List (Str × Str)) : LogState × List (Str × Statistics) :=
  rs.foldl pipeStep (initLog, [])

/-- The three-line end-to-end example of spec §8. -/
def pipeExample : List (Str × Str) :=
  [("t1".toList, "S 5.0, T 20.0".toList),
   ("t2".toList, "S 6.0, T 21.0, H 50.0".toList),
   ("t3".toList, "S 7.0, T 22.0, H 51.0".toList)]

/-- Per-parameter statistics record of the pi variant
(src/pi/datalogger.py lines 228-236): running min/max/sum, the all-time count,
and a bounded window (`deque(maxlen=100)`) kept "for std dev". -/
structure PiStats : Type where
  min_val : ℚ
  max_val : ℚ
  sum_val : ℚ
  count : ℕ
  values : List ℚ
deriving DecidableEq

/-- Fallback value for reading an absent pi statistics entry. -/
def piStat0 : PiStats := ⟨0, 0, 0, 0, []⟩

/-- The per-parameter body of the pi variant's `update_statistics`
(src/pi/datalogger.py lines 223-247): create `{min, max, sum, count 1, empty
window}` on first sight, otherwise extend min/max and the cumulative sum and
count; in both cases the value is then appended to the bounded window. -/
def piStatUpdate (cur : Option PiStats) (v : ℚ) : PiStats :=
  let s : PiStats :=
    match cur with
    | Option.none => { min_val := v, max_val := v, sum_val := v, count := 1, values := [] }
    | some s0 =>
      { s0 with
          min_val := min s0.min_val v, max_val := max s0.max_val v,
          sum_val := s0.sum_val + v, count := s0.count + 1 }
  { s with values := dequeAppend 100 s.values v }

/-- Map-level pi statistics update for one numeric field. -/
def piUpdateValue (m : List (Str × PiStats)) (param : Str) (v : ℚ) : List (Str × PiStats) :=
  alSet m param (piStatUpdate (alGet m param) v)

/-- Feed a list of numeric values for one parameter through the pi engine. -/
def piFeedKey (k : Str) (vs : List ℚ) : List (Str × PiStats) :=
  vs.foldl (fun m v => piUpdateValue m k v) []

/-- The mean the pi variant's `save_statistics` reports
(src/pi/datalogger.py line 259): the cumulative `sum / count` over ALL values
ever seen, not a windowed mean. -/
def piReportedMean (s : PiStats) : ℚ := s.sum_val / (s.count : ℚ)

/-- The concrete input refuting the windowed-mean claim on the pi variant:
one hundred zeroes followed by a single one (101 = capacity + 1 values). -/
def piCEInput : List ℚ := List.replicate 100 0 ++ [1]

/-- The pi statistics entry for key `S` after feeding `piCEInput`. -/
def piCEStat : PiStats := (alGet (piFeedKey ['S'] piCEInput) ['S']).getD piStat0

/-! Basic lemmas about the association-list dict model. -/

theorem alGet_alUpdate_self {β : Type} (m : List (Str × β)) (k : Str) (v : β)
    (h : (alGet m k).isSome) : alGet (alUpdate m k v) k = some v := by
  induction m with
  | nil => simp [alGet] at h
  | cons kv m ih =>
    by_cases hk : kv.1 = k
    · simp [alUpdate, alGet, hk]
    · simp [alGet, hk] at h
      simp [alUpdate, alGet, hk, ih h]

theorem alGet_append_right {β : Type} (m m' : List (Str × β)) (k : Str)
    (h : alGet m k = Option.none) : alGet (m ++ m') k = alGet m' k := by
  induction m with
  | nil => simp
  | cons kv m ih =>
    by_cases hk : kv.1 = k
    · simp [alGet, hk] at h
    · simp [alGet, hk] at h ⊢
      exact ih h

theorem alGet_alSet_self {β : Type} (m : List (Str × β)) (k : Str) (v : β) :
    alGet (alSet m k v) k = some v := by
  unfold alSet
  by_cases h : (alGet m k).isSome
  · simp [h, alGet_alUpdate_self m k v h]
  · simp [h]
    have hn : alGet m k = Option.none := by
      cases hg : alGet m k with
      | none => rfl
      | some w => simp [hg] at h
    rw [alGet_append_right m _ k hn]
    simp [alGet]

/-! Schema registry: characterisation of the column-observation fold. -/

theorem observe_go (ps : List (Str × Str)) :
    ∀ (cols : List Str) (b : Bool),
      ps.foldl (fun acc kv => if kv.1 ∈ acc.1 then acc else (acc.1 ++ [kv.1], true)) (cols, b) =
        (cols ++ firstSeenNew cols (ps.map (fun kv => kv.1)),
          b || !(firstSeenNew cols (ps.map (fun kv => kv.1))).isEmpty) := by
  induction ps with
  | nil => intro cols b; simp [firstSeenNew]
  | cons kv ps ih =>
    intro cols b
    by_cases hm : kv.1 ∈ cols
    · simp only [List.foldl_cons, if_pos hm, List.map_cons, firstSeenNew, hm, if_true]
      exact ih cols b
    · simp only [List.foldl_cons, if_neg hm, List.map_cons, firstSeenNew, hm, if_false]
      rw [ih (cols ++ [kv.1]) true]
      simp [List.append_assoc]

theorem observeColumns_eq (cols : List Str) (ps : List (Str × Str)) :
    observeColumns cols ps =
      (cols ++ firstSeenNew cols (ps.map (fun kv => kv.1)),
        !(firstSeenNew cols (ps.map (fun kv => kv.1))).isEmpty) := by
  unfold observeColumns
  rw [observe_go ps cols false]
  simp

/-- C2 (counterexample).  `update_csv_columns` is the code realising
`SchemaRegistry.observe`.  At the concrete input below the schema does change
(it grows from one column to two), yet the returned value is Python `None`,
which is falsy — the function does not return whether the schema changed,
because its `new_columns` flag is a dead local variable. -/
theorem claim_C2_counterexample :
    ((update_csv_columns initLog [("S".toList, "5".toList)]).1.csv_columns).length = 2 ∧
    initLog.csv_columns.length = 1 ∧
    (update_csv_columns initLog [("S".toList, "5".toList)]).2 = PyRet.pyNone ∧
    PyRet.truthy (update_csv_columns initLog [("S".toList, "5".toList)]).2 = false := by
  decide

/-- C2 (amended).  `update_csv_columns` appends, in first-seen order, every
field name not already present in the column list, and computes an internal
changed flag, but it always returns `None` (falsy) rather than that flag. -/
theorem claim_C2_observe_appends (st : LogState) (parsed : List (Str × Str)) :
    (update_csv_columns st parsed).1.csv_columns =
      st.csv_columns ++ firstSeenNew st.csv_columns (parsed.map (fun kv => kv.1)) ∧
    (observeColumns st.csv_columns parsed).2 =
      !(firstSeenNew st.csv_columns (parsed.map (fun kv => kv.1))).isEmpty ∧
    (update_csv_columns st parsed).2 = PyRet.pyNone := by
  refine ⟨?_, ?_, ?_⟩
  · simp only [update_csv_columns, observeColumns_eq]
    by_cases h : st.csv_headers_written <;> simp [h]
  · rw [observeColumns_eq]
  · simp only [update_csv_columns]

/-! LineParser totality on degenerate input. -/

theorem wsTokensAux_short (l : Str) :
    ∀ acc : Str, (∀ c ∈ l, isPySpace c = false) → (wsTokensAux l acc).length ≤ 1 := by
  induction l with
  | nil =>
    intro acc _
    by_cases ha : acc = [] <;> simp [wsTokensAux, ha]
  | cons c rest ih =>
    intro acc h
    have hc : isPySpace c = false := h c (List.mem_cons_self c rest)
    simp only [wsTokensAux, hc, Bool.false_eq_true, if_false]
    exact ih (c :: acc) (fun d hd => h d (List.mem_cons_of_mem c hd))

theorem pairTokens_short (m : List (Str × Str)) (ts : List Str) (h : ts.length ≤ 1) :
    pairTokens m ts = m := by
  match ts with
  | [] => rfl
  | [t] => rfl
  | a :: b :: r => simp at h

theorem mem_of_mem_pyStrip (s : Str) (c : Char) (h : c ∈ pyStrip s) : c ∈ s := by
  unfold pyStrip rstrip lstrip at h
  have h1 : c ∈ (s.dropWhile isPySpace).reverse.dropWhile isPySpace := by
    simpa using h
  have h2 : c ∈ (s.dropWhile isPySpace).reverse := (List.dropWhile_suffix isPySpace).subset h1
  have h3 : c ∈ s.dropWhile isPySpace := by simpa using h2
  exact (List.dropWhile_suffix isPySpace).subset h3

/-- C6.  The line parser is a total function (the embedded `parse_data_line`
never fails, modelling that the Python `try/except` can never fire), and on a
line containing no comma and no whitespace at all — such as `"garbage"` — it
degrades to the empty field mapping rather than erroring. -/
theorem claim_C6_parser_total (line : Str)
    (h : ∀ c ∈ line, c ≠ ',' ∧ isPySpace c = false) :
    parse_data_line line = [] := by
  have hc : ',' ∉ line := fun hm => (h ',' hm).1 rfl
  unfold parse_data_line
  rw [if_neg hc]
  refine pairTokens_short [] _ (wsTokensAux_short _ [] ?_)
  intro c hcs
  exact (h c (mem_of_mem_pyStrip line c hcs)).2

/-- C6 (witness): the concrete line `"garbage"` of spec §8 yields the empty
mapping. -/
theorem claim_C6_witness :
    (∀ c ∈ "garbage".toList, c ≠ ',' ∧ isPySpace c = false) ∧
    parse_data_line "garbage".toList = [] :=
  ⟨by decide, claim_C6_parser_total "garbage".toList (by decide)⟩

/-! Non-numeric fields: excluded from statistics, still written to the row. -/

/-- C8.  A field whose raw value is not parseable as a float leaves the
statistics table untouched (no entry created or mutated, no error), while
`write_csv_row` still emits the raw value verbatim in the data row whenever
the field's column exists. -/
theorem claim_C8_nonnumeric_noop (m : List (Str × Statistics)) (k v : Str)
    (st : LogState) (ts : Str) (parsed : List (Str × Str))
    (h1 : pyFloat? v = Option.none) (h2 : alGet parsed k = some v)
    (h3 : k ∈ st.csv_columns) (h4 : k ≠ tsCol) :
    statsFieldStep m (k, v) = m ∧
    v ∈ rowFields st.csv_columns ts parsed ∧
    (write_csv_row st ts parsed).log_lines =
      st.log_lines ++ [OutLine.row (rowFields st.csv_columns ts parsed)] := by
  refine ⟨?_, ?_, rfl⟩
  · simp [statsFieldStep, h1]
  · unfold rowFields
    refine List.mem_map.mpr ⟨k, h3, ?_⟩
    simp [h4, h2]

/-- C8 (witness): the raw value `"abc"` is not float-parseable; feeding it for
parameter `X` is a statistics no-op yet the value still appears in the row. -/
theorem claim_C8_witness :
    pyFloat? "abc".toList = Option.none ∧
    alGet [("X".toList, "abc".toList)] "X".toList = some "abc".toList ∧
    "X".toList ∈ [tsCol, "X".toList] ∧
    "X".toList ≠ tsCol ∧
    (statsFieldStep [] ("X".toList, "abc".toList) = [] ∧
      "abc".toList ∈
        rowFields [tsCol, "X".toList] "t".toList [("X".toList, "abc".toList)] ∧
      (write_csv_row ⟨[tsCol, "X".toList], true, []⟩ "t".toList
            [("X".toList, "abc".toList)]).log_lines =
        (⟨[tsCol, "X".toList], true, []⟩ : LogState).log_lines ++
          [OutLine.row (rowFields [tsCol, "X".toList] "t".toList
            [("X".toList, "abc".toList)])]) :=
  ⟨by decide, by decide, by decide, by decide,
    claim_C8_nonnumeric_noop [] "X".toList "abc".toList
      ⟨[tsCol, "X".toList], true, []⟩ "t".toList [("X".toList, "abc".toList)]
      (by decide) (by decide) (by decide) (by decide)⟩

/-! RecordWriter / schema session lemmas. -/

theorem update_csv_columns_true (st : LogState) (ps : List (Str × Str))
    (h : st.csv_headers_written = true) :
    (update_csv_columns st ps).1 =
      ⟨(observeColumns st.csv_columns ps).1, true, st.log_lines⟩ := by
  simp [update_csv_columns, h]

theorem update_csv_columns_false (st : LogState) (ps : List (Str × Str))
    (h : st.csv_headers_written = false) :
    (update_csv_columns st ps).1 =
      ⟨(observeColumns st.csv_columns ps).1, true,
        st.log_lines ++ [OutLine.header (observeColumns st.csv_columns ps).1]⟩ := by
  simp only [update_csv_columns, h]
  rfl

theorem csvStep_true (st : LogState) (r : Str × List (Str × Str))
    (h : st.csv_headers_written = true) :
    csvStep st r =
      ⟨(observeColumns st.csv_columns r.2).1, true,
        st.log_lines ++
          [OutLine.row (rowFields (observeColumns st.csv_columns r.2).1 r.1 r.2)]⟩ := by
  unfold csvStep write_csv_row
  rw [update_csv_columns_true st r.2 h]

theorem csvStep_false (st : LogState) (r : Str × List (Str × Str))
    (h : st.csv_headers_written = false) :
    csvStep st r =
      ⟨(observeColumns st.csv_columns r.2).1, true,
        st.log_lines ++
          [OutLine.header (observeColumns st.csv_columns r.2).1,
           OutLine.row (rowFields (observeColumns st.csv_columns r.2).1 r.1 r.2)]⟩ := by
  unfold csvStep write_csv_row
  rw [update_csv_columns_false st r.2 h]
  simp

theorem runFrom_written (rs : List (Str × List (Str × Str))) :
    ∀ st : LogState, st.csv_headers_written = true →
      (rs.foldl csvStep st).csv_headers_written = true ∧
      ∃ t, (rs.foldl csvStep st).log_lines = st.log_lines ++ t ∧
        ∀ l ∈ t, isHeaderLine l = false := by
  induction rs with
  | nil => intro st h; exact ⟨h, [], by simp⟩
  | cons r rs ih =>
    intro st h
    obtain ⟨hw, t, ht, hrow⟩ := ih (csvStep st r) (by rw [csvStep_true st r h])
    rw [List.foldl_cons] at *
    rw [csvStep_true st r h] at ht
    refine ⟨hw,
      [OutLine.row (rowFields (observeColumns st.csv_columns r.2).1 r.1 r.2)] ++ t, ?_, ?_⟩
    · rw [csvStep_true st r h, ht]
      simp
    · intro l hl
      rcases List.mem_append.mp hl with hl | hl
      · rcases List.mem_singleton.mp hl with rfl
        rfl
      · exact hrow l hl

theorem runFrom_cols (rs : List (Str × List (Str × Str))) :
    ∀ st : LogState, ∃ t, (rs.foldl csvStep st).csv_columns = st.csv_columns ++ t := by
  induction rs with
  | nil => intro st; exact ⟨[], by simp⟩
  | cons r rs ih =>
    intro st
    rw [List.foldl_cons]
    obtain ⟨t, ht⟩ := ih (csvStep st r)
    have hstep : (csvStep st r).csv_columns =
        st.csv_columns ++ firstSeenNew st.csv_columns (r.2.map (fun kv => kv.1)) := by
      unfold csvStep write_csv_row
      by_cases h : st.csv_headers_written
      · rw [update_csv_columns_true st r.2 h, observeColumns_eq]
      · rw [update_csv_columns_false st r.2 (by simpa using h), observeColumns_eq]
    exact ⟨firstSeenNew st.csv_columns (r.2.map (fun kv => kv.1)) ++ t,
      by rw [ht, hstep, List.append_assoc]⟩

/-- C3.  Across any nonempty session, the data log contains exactly one header
line; it is the very first line written, and it carries the schema snapshot at
that moment (the columns after observing the first record).  No later schema
growth ever produces another header line. -/
theorem claim_C3_single_header (r : Str × List (Str × Str))
    (rs : List (Str × List (Str × Str))) :
    ((runCsv (r :: rs)).log_lines.countP isHeaderLine = 1) ∧
    ((runCsv (r :: rs)).log_lines.head? =
      some (OutLine.header (observeColumns initLog.csv_columns r.2).1)) := by
  unfold runCsv
  obtain ⟨hw, t, ht, hrow⟩ :=
    runFrom_written rs (csvStep initLog r) (by rw [csvStep_false initLog r rfl])
  have h0 : t.countP isHeaderLine = 0 :=
    List.countP_eq_zero.mpr (by intro l hl; simp [hrow l hl])
  have hlines : (List.foldl csvStep (csvStep initLog r) rs).log_lines =
      OutLine.header (observeColumns initLog.csv_columns r.2).1 ::
        OutLine.row (rowFields (observeColumns initLog.csv_columns r.2).1 r.1 r.2) :: t := by
    rw [ht, csvStep_false initLog r rfl]
    simp [initLog]
  rw [List.foldl_cons, hlines]
  constructor
  · simp [List.countP_cons, isHeaderLine, h0]
  · rfl

theorem rowFields_length (cols : List Str) (ts : Str) (parsed : List (Str × Str)) :
    (rowFields cols ts parsed).length = cols.length := by
  unfold rowFields
  exact List.length_map cols _

theorem observeColumns_le_length (cols : List Str) (ps : List (Str × Str)) :
    cols.length ≤ (observeColumns cols ps).1.length := by
  rw [observeColumns_eq]
  simp

theorem runCsv_inv (rs : List (Str × List (Str × Str))) :
    ∀ st : LogState,
      (st.csv_headers_written = false → st.log_lines = []) →
      (∀ l ∈ st.log_lines, lineLen l ≤ st.csv_columns.length) →
      (∀ cs, OutLine.header cs ∈ st.log_lines →
        ∀ l ∈ st.log_lines, cs.length ≤ lineLen l) →
      ((∀ l ∈ (rs.foldl csvStep st).log_lines,
          lineLen l ≤ (rs.foldl csvStep st).csv_columns.length) ∧
        (∀ cs, OutLine.header cs ∈ (rs.foldl csvStep st).log_lines →
          ∀ l ∈ (rs.foldl csvStep st).log_lines, cs.length ≤ lineLen l)) := by
  induction rs with
  | nil => intro st _ h2 h3; exact ⟨h2, h3⟩
  | cons r rs ih =>
    intro st h1 h2 h3
    rw [List.foldl_cons]
    by_cases hw : st.csv_headers_written
    · -- header already written: the step appends exactly one data row
      rw [csvStep_true st r hw] at *
      refine ih _ (by intro h; cases h) ?_ ?_
      · intro l hl
        rcases List.mem_append.mp hl with hl | hl
        · exact le_trans (h2 l hl) (observeColumns_le_length st.csv_columns r.2)
        · rcases List.mem_singleton.mp hl with rfl
          simp [lineLen, rowFields_length]
      · intro cs hcs l hl
        have hcs' : OutLine.header cs ∈ st.log_lines := by
          rcases List.mem_append.mp hcs with hc | hc
          · exact hc
          · rcases List.mem_singleton.mp hc with hc
            cases hc
        rcases List.mem_append.mp hl with hl | hl
        · exact h3 cs hcs' l hl
        · rcases List.mem_singleton.mp hl with rfl
          have : cs.length ≤ st.csv_columns.length := by
            simpa [lineLen] using h2 _ hcs'
          simp only [lineLen, rowFields_length]
          exact le_trans this (observeColumns_le_length st.csv_columns r.2)
    · -- first write: header and first row are emitted together
      have hw' : st.csv_headers_written = false := by simpa using hw
      rw [csvStep_false st r hw'] at *
      rw [h1 hw'] at *
      refine ih _ (by intro h; cases h) ?_ ?_
      · intro l hl
        simp only [List.nil_append, List.mem_cons, List.mem_singleton] at hl
        rcases hl with rfl | rfl | h
        · simp [lineLen]
        · simp [lineLen, rowFields_length]
        · cases h
      · intro cs hcs l hl
        simp only [List.nil_append, List.mem_cons, List.mem_singleton] at hcs hl
        have hcseq : cs = (observeColumns st.csv_columns r.2).1 := by
          rcases hcs with hc | hc | hc
          · cases hc; rfl
          · cases hc
          · cases hc
        subst hcseq
        rcases hl with rfl | rfl | h
        · simp [lineLen]
        · simp [lineLen, rowFields_length]
        · cases h

/-- C4.  Every data row carries one field per column of the schema current at
its write time, so no row is ever narrower than the header and rows written
after the schema has grown are strictly wider than the header declares.
First conjunct: in any session, the header's declared width is a lower bound
for every row's width.  Second conjunct: the end-to-end example of spec §8 —
feeding "S 5.0, T 20.0", then "S 6.0, T 21.0, H 50.0", then
"S 7.0, T 22.0, H 51.0" — produces the header `timestamp,S,T` (3 columns) and
three rows of which the second and third carry 4 fields, the trailing one
being the `H` value not declared in the header. -/
theorem claim_C4_row_width :
    (∀ (rs : List (Str × List (Str × Str))) (cs fs : List Str),
      OutLine.header cs ∈ (runCsv rs).log_lines →
      OutLine.row fs ∈ (runCsv rs).log_lines → cs.length ≤ fs.length) ∧
    (runPipeline pipeExample).1.log_lines =
      [OutLine.header [tsCol, "S".toList, "T".toList],
       OutLine.row ["t1".toList, "5.0".toList, "20.0".toList],
       OutLine.row ["t2".toList, "6.0".toList, "21.0".toList, "50.0".toList],
       OutLine.row ["t3".toList, "7.0".toList, "22.0".toList, "51.0".toList]] := by
  constructor
  · intro rs cs fs hh hr
    have := (runCsv_inv rs initLog (fun _ => rfl) (by intro l hl; cases hl)
      (by intro cs hcs; cases hcs)).2 cs hh (OutLine.row fs) hr
    simpa [lineLen] using this
  · decide

/-- C4 (witness): a one-record session in which the header and the row both
have width 2, discharging the membership hypotheses of the general bound. -/
theorem claim_C4_witness :
    OutLine.header [tsCol, "S".toList] ∈
      (runCsv [("a".toList, [("S".toList, "1".toList)])]).log_lines ∧
    OutLine.row ["a".toList, "1".toList] ∈
      (runCsv [("a".toList, [("S".toList, "1".toList)])]).log_lines ∧
    ([tsCol, "S".toList] : List Str).length ≤
      (["a".toList, "1".toList] : List Str).length :=
  ⟨by decide, by decide,
    claim_C4_row_width.1 [("a".toList, [("S".toList, "1".toList)])]
      [tsCol, "S".toList] ["a".toList, "1".toList] (by decide) (by decide)⟩

/-- C5.  The schema is append-only across the whole session: it always begins
with the synthetic `timestamp` column, and the column list after any prefix of
the session is an initial segment of the column list after any extension —
names are never removed or reordered. -/
theorem claim_C5_schema_monotone (rs1 rs2 : List (Str × List (Str × Str))) :
    (runCsv rs1).csv_columns.head? = some tsCol ∧
    ∃ t, (runCsv (rs1 ++ rs2)).csv_columns = (runCsv rs1).csv_columns ++ t := by
  constructor
  · obtain ⟨t, ht⟩ := runFrom_cols rs1 initLog
    unfold runCsv
    rw [ht]
    rfl
  · unfold runCsv
    rw [List.foldl_append]
    exact runFrom_cols rs2 _

/-! Statistics engine: window behaviour and the running invariant. -/

theorem dequeAppend_drop (K : ℕ) (hK : 1 ≤ K) (vs : List ℚ) (v : ℚ) :
    dequeAppend K (vs.drop (vs.length - K)) v = (vs ++ [v]).drop (vs.length + 1 - K) := by
  unfold dequeAppend
  have hlen : (vs.drop (vs.length - K)).length = vs.length - (vs.length - K) :=
    List.length_drop _ _
  rcases le_or_lt (vs.length + 1) K with h1 | h2
  · have e0 : vs.length - K = 0 := by omega
    rw [e0]
    have e1 : (List.drop 0 vs ++ [v]).length - K = 0 := by
      simp only [List.drop_zero, List.length_append, List.length_singleton]
      omega
    have e2 : vs.length + 1 - K = 0 := by omega
    rw [e1, e2]
    simp
  · have hKn : K ≤ vs.length := by omega
    have e1 : (vs.drop (vs.length - K) ++ [v]).length - K = 1 := by
      simp only [List.length_append, hlen, List.length_singleton]
      omega
    rw [e1]
    have h1le : 1 ≤ (vs.drop (vs.length - K)).length := by omega
    rw [List.drop_append_of_le_length h1le, List.drop_drop]
    have e3 : vs.length - K + 1 = vs.length + 1 - K := by omega
    rw [e3]
    have h4 : vs.length + 1 - K ≤ vs.length := by omega
    rw [List.drop_append_of_le_length h4]

theorem statUpdate_zero (st : Statistics) (v : ℚ) (h : st.count = 0) :
    statUpdate st v = ⟨v, v, v, v, 0, 1, dequeAppend winCap st.values v⟩ := by
  simp [statUpdate, h]

theorem statUpdate_succ (st : Statistics) (v : ℚ) (h : st.count ≠ 0) :
    statUpdate st v =
      { min_val := min st.min_val v, max_val := max st.max_val v,
        mean_val := (dequeAppend winCap st.values v).sum /
          ((dequeAppend winCap st.values v).length : ℚ),
        current_val := v,
        variance :=
          if 1 < (dequeAppend winCap st.values v).length then
            ((dequeAppend winCap st.values v).map
                (fun x => (x - (dequeAppend winCap st.values v).sum /
                  ((dequeAppend winCap st.values v).length : ℚ)) ^ 2)).sum /
              ((dequeAppend winCap st.values v).length : ℚ)
          else st.variance,
        count := st.count + 1, values := dequeAppend winCap st.values v } := by
  simp [statUpdate, h]

theorem feedStat_snoc (vs : List ℚ) (v : ℚ) :
    feedStat (vs ++ [v]) = statUpdate (feedStat vs) v := by
  unfold feedStat
  rw [List.foldl_append]
  rfl

theorem windowOf_length (vs : List ℚ) :
    (windowOf vs).length = vs.length - (vs.length - winCap) := by
  unfold windowOf
  exact List.length_drop _ _

theorem feedStat_spec (vs : List ℚ) :
    (feedStat vs).count = vs.length ∧
    (feedStat vs).values = windowOf vs ∧
    (vs ≠ [] →
      ((feedStat vs).mean_val = (windowOf vs).sum / ((windowOf vs).length : ℚ) ∧
        (feedStat vs).variance =
          ((windowOf vs).map (fun x => (x - (feedStat vs).mean_val) ^ 2)).sum /
            ((windowOf vs).length : ℚ) ∧
        (∀ x ∈ vs, (feedStat vs).min_val ≤ x ∧ x ≤ (feedStat vs).max_val))) := by
  induction vs using List.reverseRecOn with
  | nil =>
    refine ⟨rfl, rfl, ?_⟩
    intro h
    cases h rfl
  | append_singleton vs v ih =>
    obtain ⟨ihc, ihv, ihr⟩ := ih
    rw [feedStat_snoc]
    by_cases hnil : vs = []
    · subst hnil
      have h0 : (feedStat []).count = 0 := rfl
      rw [statUpdate_zero _ v h0]
      have hval : dequeAppend winCap (feedStat []).values v = [v] := by
        simp [feedStat, stat0, dequeAppend, winCap]
      have hwin : windowOf [v] = [v] := by
        norm_num [windowOf, winCap]
      refine ⟨by simp, by simp [hval, hwin], ?_⟩
      intro _
      refine ⟨?_, ?_, ?_⟩
      · simp only [List.nil_append, hwin]
        simp
      · simp only [List.nil_append, hwin]
        simp
      · intro x hx
        simp at hx
        simp [hx]
    · have hcnt : (feedStat vs).count ≠ 0 := by
        rw [ihc]
        simpa using fun h => hnil (List.length_eq_zero.mp h)
      rw [statUpdate_succ _ v hcnt]
      have hdq : dequeAppend winCap (feedStat vs).values v = windowOf (vs ++ [v]) := by
        rw [ihv]
        unfold windowOf
        rw [dequeAppend_drop winCap (by norm_num [winCap]) vs v]
        simp
      have hlen2 : 1 < (windowOf (vs ++ [v])).length := by
        have := windowOf_length (vs ++ [v])
        have hv1 : 1 ≤ vs.length := by
          rcases Nat.eq_zero_or_pos vs.length with h | h
          · exact absurd (List.length_eq_zero.mp h) hnil
          · exact h
        simp only [List.length_append, List.length_singleton] at this
        rw [this]
        have : winCap = 150 := rfl
        omega
      obtain ⟨ihm, ihvar, ihb⟩ := ihr hnil
      refine ⟨by simp [ihc], by simp [hdq], ?_⟩
      intro _
      refine ⟨?_, ?_, ?_⟩
      · simp only [hdq]
      · simp only [hdq, if_pos hlen2]
      · intro x hx
        rcases List.mem_append.mp hx with hx | hx
        · obtain ⟨hmin, hmax⟩ := ihb x hx
          exact ⟨le_trans (min_le_left _ _) hmin, le_trans hmax (le_max_left _ _)⟩
        · rcases List.mem_singleton.mp hx with rfl
          exact ⟨min_le_right _ _, le_max_right _ _⟩

theorem statAfter_eq (k : Str) (vs : List ℚ) : statAfter k vs = feedStat vs := by
  induction vs using List.reverseRecOn with
  | nil => rfl
  | append_singleton vs v ih =>
    have hstep : feedKey k (vs ++ [v]) = calculate_statistics (feedKey k vs) k v := by
      unfold feedKey
      rw [List.foldl_append]
      rfl
    unfold statAfter
    rw [hstep]
    unfold calculate_statistics
    rw [alGet_alSet_self]
    simp only [Option.getD_some]
    rw [show (alGet (feedKey k vs) k).getD stat0 = statAfter k vs from rfl, ih, feedStat_snoc]

theorem card_mul_le_sum (l : List ℚ) (a : ℚ) (h : ∀ x ∈ l, a ≤ x) :
    a * (l.length : ℚ) ≤ l.sum := by
  induction l with
  | nil => simp
  | cons x t ih =>
    have hx : a ≤ x := h x (List.mem_cons_self x t)
    have ht : a * (t.length : ℚ) ≤ t.sum := ih (fun y hy => h y (List.mem_cons_of_mem x hy))
    simp only [List.sum_cons, List.length_cons]
    push_cast
    calc a * ((t.length : ℚ) + 1) = a + a * (t.length : ℚ) := by ring
    _ ≤ x + t.sum := add_le_add hx ht

theorem sum_le_card_mul (l : List ℚ) (a : ℚ) (h : ∀ x ∈ l, x ≤ a) :
    l.sum ≤ a * (l.length : ℚ) := by
  induction l with
  | nil => simp
  | cons x t ih =>
    have hx : x ≤ a := h x (List.mem_cons_self x t)
    have ht : t.sum ≤ a * (t.length : ℚ) := ih (fun y hy => h y (List.mem_cons_of_mem x hy))
    simp only [List.sum_cons, List.length_cons]
    push_cast
    calc x + t.sum ≤ a + a * (t.length : ℚ) := add_le_add hx ht
    _ = a * ((t.length : ℚ) + 1) := by ring

theorem le_list_mean (l : List ℚ) (hne : l ≠ []) (a : ℚ) (h : ∀ x ∈ l, a ≤ x) :
    a ≤ l.sum / (l.length : ℚ) := by
  have hl : (0 : ℚ) < (l.length : ℚ) := by
    exact_mod_cast List.length_pos.mpr hne
  rw [le_div_iff₀ hl]
  exact card_mul_le_sum l a h

theorem list_mean_le (l : List ℚ) (hne : l ≠ []) (a : ℚ) (h : ∀ x ∈ l, x ≤ a) :
    l.sum / (l.length : ℚ) ≤ a := by
  have hl : (0 : ℚ) < (l.length : ℚ) := by
    exact_mod_cast List.length_pos.mpr hne
  rw [div_le_iff₀ hl]
  exact sum_le_card_mul l a h

theorem list_sum_const (l : List ℚ) (c : ℚ) (h : ∀ x ∈ l, x = c) :
    l.sum = (l.length : ℚ) * c := by
  induction l with
  | nil => simp
  | cons x t ih =>
    have hx : x = c := h x (List.mem_cons_self x t)
    have ht : t.sum = (t.length : ℚ) * c := ih (fun y hy => h y (List.mem_cons_of_mem x hy))
    simp only [List.sum_cons, List.length_cons, hx, ht]
    push_cast
    ring

theorem windowOf_subset (vs : List ℚ) : ∀ x ∈ windowOf vs, x ∈ vs := by
  intro x hx
  exact List.drop_subset _ vs hx

theorem windowOf_ne_nil (vs : List ℚ) (h : vs ≠ []) : windowOf vs ≠ [] := by
  have hlen := windowOf_length vs
  have hpos : 0 < vs.length := List.length_pos.mpr h
  have hcap : winCap = 150 := rfl
  intro hnil
  rw [hnil] at hlen
  simp at hlen
  omega

/-- C10.  After any statistics update (the state after feeding any nonempty
value sequence), the invariant `min_val ≤ mean_val ≤ max_val` holds under
exact arithmetic: min and max are all-time extrema, so they bound every value
in the window over which the mean is computed. -/
theorem claim_C10_min_mean_max (k : Str) (vs : List ℚ) (h : vs ≠ []) :
    (statAfter k vs).min_val ≤ (statAfter k vs).mean_val ∧
    (statAfter k vs).mean_val ≤ (statAfter k vs).max_val := by
  rw [statAfter_eq]
  obtain ⟨_, _, hr⟩ := feedStat_spec vs
  obtain ⟨hm, _, hb⟩ := hr h
  rw [hm]
  have hwne : windowOf vs ≠ [] := windowOf_ne_nil vs h
  constructor
  · exact le_list_mean _ hwne _
      (fun x hx => (hb x (windowOf_subset vs x hx)).1)
  · exact list_mean_le _ hwne _
      (fun x hx => (hb x (windowOf_subset vs x hx)).2)

/-- C10 (witness): the invariant at the concrete stream 3, 1, 2. -/
theorem claim_C10_witness :
    ([(3 : ℚ), 1, 2] ≠ []) ∧
    ((statAfter ['S'] [(3 : ℚ), 1, 2]).min_val ≤ (statAfter ['S'] [(3 : ℚ), 1, 2]).mean_val ∧
      (statAfter ['S'] [(3 : ℚ), 1, 2]).mean_val ≤ (statAfter ['S'] [(3 : ℚ), 1, 2]).max_val) :=
  ⟨by simp, claim_C10_min_mean_max ['S'] [(3 : ℚ), 1, 2] (by simp)⟩

/-- C1 (amended, linux engine).  In `calculate_statistics` (the linux, mac and
windows engines) the mean is the arithmetic mean of the current bounded window
contents: with window capacity 150, after feeding capacity + 1 values the
window holds exactly the last 150 values, the first (oldest) fed value has
been evicted, and mean and variance are computed over the window only. -/
theorem claim_C1_windowed_mean (k : Str) (v : ℚ) (vs : List ℚ)
    (h : vs.length = 150) :
    (statAfter k (v :: vs)).values = vs ∧
    (statAfter k (v :: vs)).values.length = 150 ∧
    (statAfter k (v :: vs)).mean_val = vs.sum / (150 : ℚ) ∧
    (statAfter k (v :: vs)).variance =
      (vs.map (fun x => (x - vs.sum / (150 : ℚ)) ^ 2)).sum / (150 : ℚ) := by
  rw [statAfter_eq]
  obtain ⟨_, hv, hr⟩ := feedStat_spec (v :: vs)
  obtain ⟨hm, hvar, _⟩ := hr (List.cons_ne_nil v vs)
  have hwin : windowOf (v :: vs) = vs := by
    unfold windowOf winCap
    simp only [List.length_cons, h]
    norm_num
  refine ⟨by rw [hv, hwin], by rw [hv, hwin, h], ?_, ?_⟩
  · rw [hm, hwin, h]
    norm_num
  · rw [hvar, hm, hwin, h]
    norm_num

/-- C1 (witness for the amended claim): 151 concrete values. -/
theorem claim_C1_witness :
    ((List.replicate 150 (0 : ℚ)).length = 150) ∧
    ((statAfter ['S'] ((1 : ℚ) :: List.replicate 150 (0 : ℚ))).values =
        List.replicate 150 (0 : ℚ) ∧
      (statAfter ['S'] ((1 : ℚ) :: List.replicate 150 (0 : ℚ))).values.length = 150 ∧
      (statAfter ['S'] ((1 : ℚ) :: List.replicate 150 (0 : ℚ))).mean_val =
        (List.replicate 150 (0 : ℚ)).sum / (150 : ℚ) ∧
      (statAfter ['S'] ((1 : ℚ) :: List.replicate 150 (0 : ℚ))).variance =
        ((List.replicate 150 (0 : ℚ)).map
            (fun x => (x - (List.replicate 150 (0 : ℚ)).sum / (150 : ℚ)) ^ 2)).sum /
          (150 : ℚ)) :=
  ⟨by simp, claim_C1_windowed_mean ['S'] 1 (List.replicate 150 (0 : ℚ)) (by simp)⟩

/-- C9.  The engine's standard deviation is the population (divide-by-N) form
computed over the window, not the sample (divide-by-N-1) form.  First
conjunct: for every constant-valued stream of length greater than 1, the mean
is the constant, the variance is exactly 0 — hence the reported standard
deviation `sqrt variance` is exactly 0 — and the count is the stream length.
Second conjunct: on the stream 0, 2 the engine's variance equals the
population variance (1) and differs from the sample variance (2). -/
theorem claim_C9_population_std :
    (∀ (k : Str) (c : ℚ) (n : ℕ), 2 ≤ n →
      ((statAfter k (List.replicate n c)).mean_val = c ∧
        (statAfter k (List.replicate n c)).variance = 0 ∧
        Real.sqrt (((statAfter k (List.replicate n c)).variance : ℚ) : ℝ) = 0 ∧
        (statAfter k (List.replicate n c)).count = n)) ∧
    ((statAfter ['S'] [(0 : ℚ), 2]).variance = popVariance [(0 : ℚ), 2] ∧
      popVariance [(0 : ℚ), 2] = 1 ∧ sampleVariance [(0 : ℚ), 2] = 2) := by
  constructor
  · intro k c n hn
    rw [statAfter_eq]
    have hne : List.replicate n c ≠ [] := by
      intro h0
      have := congrArg List.length h0
      simp at this
      omega
    obtain ⟨hc, _, hr⟩ := feedStat_spec (List.replicate n c)
    obtain ⟨hm, hvar, _⟩ := hr hne
    have hwconst : ∀ x ∈ windowOf (List.replicate n c), x = c := fun x hx =>
      List.eq_of_mem_replicate (windowOf_subset _ x hx)
    have hwne : windowOf (List.replicate n c) ≠ [] := windowOf_ne_nil _ hne
    have hlpos : (0 : ℚ) < ((windowOf (List.replicate n c)).length : ℚ) := by
      exact_mod_cast List.length_pos.mpr hwne
    have hmean : (feedStat (List.replicate n c)).mean_val = c := by
      rw [hm, list_sum_const _ c hwconst]
      exact mul_div_cancel_left₀ c (ne_of_gt hlpos)
    have hvar0 : (feedStat (List.replicate n c)).variance = 0 := by
      rw [hvar]
      have hz : ∀ y ∈ (windowOf (List.replicate n c)).map
          (fun x => (x - (feedStat (List.replicate n c)).mean_val) ^ 2), y = 0 := by
        intro y hy
        obtain ⟨x, hx, rfl⟩ := List.mem_map.mp hy
        rw [hwconst x hx, hmean]
        ring
      rw [list_sum_const _ 0 hz, mul_zero, zero_div]
    refine ⟨hmean, hvar0, ?_, by rw [hc]; simp⟩
    rw [hvar0]
    simp [Real.sqrt_zero]
  · refine ⟨?_, ?_, ?_⟩
    · rw [statAfter_eq]
      show (statUpdate (statUpdate stat0 0) 2).variance = popVariance [(0 : ℚ), 2]
      rw [statUpdate_zero stat0 0 rfl]
      have h1 : dequeAppend winCap stat0.values 0 = [0] := by
        norm_num [stat0, dequeAppend, winCap]
      rw [h1]
      rw [statUpdate_succ _ 2 (by norm_num)]
      have h2 : dequeAppend winCap [(0 : ℚ)] 2 = [0, 2] := by
        norm_num [dequeAppend, winCap]
      simp only [h2]
      norm_num [popVariance]
    · norm_num [popVariance]
    · norm_num [sampleVariance]

/-- C9 (witness): the constant stream 7, 7 (length 2). -/
theorem claim_C9_witness :
    (2 ≤ 2) ∧
    ((statAfter ['S'] (List.replicate 2 (7 : ℚ))).mean_val = 7 ∧
      (statAfter ['S'] (List.replicate 2 (7 : ℚ))).variance = 0 ∧
      Real.sqrt (((statAfter ['S'] (List.replicate 2 (7 : ℚ))).variance : ℚ) : ℝ) = 0 ∧
      (statAfter ['S'] (List.replicate 2 (7 : ℚ))).count = 2) :=
  ⟨le_refl 2, claim_C9_population_std.1 ['S'] 7 2 (le_refl 2)⟩

/-! Pi-variant statistics: the reported mean is cumulative, not windowed. -/

theorem alGet_piFeedKey (k : Str) (vs : List ℚ) :
    alGet (piFeedKey k vs) k =
      vs.foldl (fun c v => some (piStatUpdate c v)) Option.none := by
  induction vs using List.reverseRecOn with
  | nil => rfl
  | append_singleton vs v ih =>
    have hstep : piFeedKey k (vs ++ [v]) = piUpdateValue (piFeedKey k vs) k v := by
      unfold piFeedKey
      rw [List.foldl_append]
      rfl
    rw [hstep, List.foldl_append]
    unfold piUpdateValue
    rw [alGet_alSet_self, ih]
    rfl

theorem piStatUpdate_none (v : ℚ) :
    piStatUpdate Option.none v = ⟨v, v, v, 1, dequeAppend 100 [] v⟩ := rfl

theorem piStatUpdate_some (s : PiStats) (v : ℚ) :
    piStatUpdate (some s) v =
      ⟨min s.min_val v, max s.max_val v, s.sum_val + v, s.count + 1,
        dequeAppend 100 s.values v⟩ := rfl

theorem piFold_spec (vs : List ℚ) (hne : vs ≠ []) :
    ∃ s, vs.foldl (fun c v => some (piStatUpdate c v)) Option.none = some s ∧
      s.count = vs.length ∧ s.sum_val = vs.sum ∧
      s.values = vs.drop (vs.length - 100) := by
  induction vs using List.reverseRecOn with
  | nil => cases hne rfl
  | append_singleton vs v ih =>
    by_cases h : vs = []
    · subst h
      refine ⟨⟨v, v, v, 1, dequeAppend 100 [] v⟩, rfl, by simp, by simp, ?_⟩
      norm_num [dequeAppend]
    · obtain ⟨s, hs, hcount, hsum, hvals⟩ := ih h
      rw [List.foldl_append]
      simp only [List.foldl_cons, List.foldl_nil, hs]
      refine ⟨_, rfl, ?_, ?_, ?_⟩
      · rw [piStatUpdate_some]
        simp [hcount]
      · rw [piStatUpdate_some]
        simp [hsum]
      · rw [piStatUpdate_some]
        show dequeAppend 100 s.values v = _
        rw [hvals, dequeAppend_drop 100 (by norm_num) vs v]
        simp

/-- C1 (counterexample, pi engine).  The claim's sources include the pi
variant's statistics (src/pi/datalogger.py, `update_statistics` +
`save_statistics`).  There the reported mean is the cumulative `sum / count`
over ALL values ever seen.  Feeding 101 = capacity + 1 values (one hundred
zeroes then a one) for one parameter, the window has length 100 and the
oldest fed value has been evicted from it, yet the reported mean is 1/101 —
the all-time mean, which still includes the evicted oldest value — and not
1/100, the arithmetic mean of the current bounded window contents.  This
refutes the claim that `update` makes the mean a windowed statistic with the
oldest value excluded. -/
theorem claim_C1_counterexample :
    piCEStat.count = 101 ∧
    piCEStat.values.length = 100 ∧
    piReportedMean piCEStat = 1 / 101 ∧
    piCEStat.values.sum / (piCEStat.values.length : ℚ) = 1 / 100 ∧
    piReportedMean piCEStat ≠ piCEStat.values.sum / (piCEStat.values.length : ℚ) := by
  have hne : piCEInput ≠ [] := by
    unfold piCEInput
    intro h
    have := congrArg List.length h
    simp at this
  obtain ⟨s, hs, hcount, hsum, hvals⟩ := piFold_spec piCEInput hne
  have hstat : piCEStat = s := by
    unfold piCEStat
    rw [alGet_piFeedKey, hs]
    rfl
  have hlen : piCEInput.length = 101 := by
    unfold piCEInput
    simp
  have hsum1 : piCEInput.sum = 1 := by
    unfold piCEInput
    rw [List.sum_append, List.sum_replicate]
    simp
  have hwin : piCEInput.drop (piCEInput.length - 100) = List.replicate 99 0 ++ [1] := by
    decide
  have hwlen : (List.replicate 99 (0 : ℚ) ++ [1]).length = 100 := by simp
  have hwsum : (List.replicate 99 (0 : ℚ) ++ [1]).sum = 1 := by
    rw [List.sum_append, List.sum_replicate]
    simp
  rw [hstat]
  refine ⟨by rw [hcount, hlen], by rw [hvals, hwin, hwlen], ?_, ?_, ?_⟩
  · unfold piReportedMean
    rw [hsum, hsum1, hcount, hlen]
    norm_num
  · rw [hvals, hwin, hwlen, hwsum]
    norm_num
  · unfold piReportedMean
    rw [hsum, hsum1, hcount, hlen, hvals, hwin, hwlen, hwsum]
    norm_num

/-! LineParser refinement: the source parser equals the spec's algorithm. -/

theorem splitFirstSpace_some (s : Str) :
    ∀ kv : Str × Str, splitFirstSpace s = some kv → s = kv.1 ++ ' ' :: kv.2 := by
  induction s with
  | nil => intro kv h; cases h
  | cons c rest ih =>
    intro kv h
    unfold splitFirstSpace at h
    by_cases hc : c = ' '
    · rw [if_pos hc] at h
      cases h
      rw [hc]
      rfl
    · rw [if_neg hc] at h
      cases hsp : splitFirstSpace rest with
      | none => rw [hsp] at h; cases h
      | some kv' =>
        rw [hsp] at h
        simp only [Option.map_some', Option.some.injEq] at h
        subst h
        have hrest := ih kv' hsp
        show c :: rest = (c :: kv'.1) ++ ' ' :: kv'.2
        rw [List.cons_append, ← hrest]

theorem dropWhile_head_not {α : Type} (p : α → Bool) (l : List α) (c : α) (t : List α)
    (h : l.dropWhile p = c :: t) : p c = false := by
  induction l with
  | nil => cases h
  | cons a l ih =>
    rw [List.dropWhile_cons] at h
    by_cases ha : p a = true
    · rw [if_pos ha] at h
      exact ih h
    · rw [if_neg ha] at h
      cases h
      simpa using ha

theorem pyStrip_all_space (s : Str) (h : pyStrip s = []) :
    ∀ c ∈ s, isPySpace c = true := by
  unfold pyStrip rstrip at h
  have h1 : (s.dropWhile isPySpace).reverse.dropWhile isPySpace = [] := by
    have := congrArg List.reverse h
    simpa using this
  have h2 : ∀ c ∈ (s.dropWhile isPySpace).reverse, isPySpace c = true := by
    rw [List.dropWhile_eq_nil_iff] at h1
    exact h1
  have h3 : ∀ c ∈ s.dropWhile isPySpace, isPySpace c = true := by
    intro c hc
    exact h2 c (List.mem_reverse.mpr hc)
  intro c hc
  rw [← List.takeWhile_append_dropWhile (p := isPySpace) (l := s)] at hc
  rcases List.mem_append.mp hc with hc | hc
  · exact List.mem_takeWhile_imp hc
  · exact h3 c hc

theorem pyStrip_ne_nil (s : Str) (c : Char) (hc : c ∈ s) (hns : isPySpace c = false) :
    pyStrip s ≠ [] := by
  intro h
  rw [pyStrip_all_space s h c hc] at hns
  cases hns

theorem rstrip_eq_prefix (y : Str) : ∃ t, y = rstrip y ++ t := by
  obtain ⟨pre, hpre⟩ := List.dropWhile_suffix (l := y.reverse) isPySpace
  refine ⟨pre.reverse, ?_⟩
  unfold rstrip
  calc y = y.reverse.reverse := (List.reverse_reverse y).symm
  _ = (pre ++ y.reverse.dropWhile isPySpace).reverse := by rw [hpre]
  _ = (y.reverse.dropWhile isPySpace).reverse ++ pre.reverse := by
      rw [List.reverse_append]

theorem pyStrip_head_not_space (s : Str) (c : Char) (t : Str)
    (h : pyStrip s = c :: t) : isPySpace c = false := by
  obtain ⟨t', ht'⟩ := rstrip_eq_prefix (lstrip s)
  unfold pyStrip at h
  rw [h] at ht'
  unfold lstrip at ht'
  exact dropWhile_head_not isPySpace s c (t ++ t') (by rw [ht']; simp)

theorem pyStrip_last_not_space (s : Str) (c : Char) (t : Str)
    (h : (pyStrip s).reverse = c :: t) : isPySpace c = false := by
  unfold pyStrip rstrip at h
  rw [List.reverse_reverse] at h
  exact dropWhile_head_not isPySpace (lstrip s).reverse c t h

theorem specSegment_nonempty (seg : Str) (kv : Str × Str)
    (h : splitFirstSpace (pyStrip seg) = some kv) :
    pyStrip kv.1 ≠ [] ∧ pyStrip kv.2 ≠ [] := by
  have hsplit : pyStrip seg = kv.1 ++ ' ' :: kv.2 := splitFirstSpace_some _ kv h
  constructor
  · cases hk : kv.1 with
    | nil =>
      rw [hk] at hsplit
      have := pyStrip_head_not_space seg ' ' kv.2 (by simpa using hsplit)
      simp [isPySpace] at this
    | cons c k' =>
      have hns : isPySpace c = false := by
        apply pyStrip_head_not_space seg c (k' ++ ' ' :: kv.2)
        rw [hsplit, hk]
        rfl
      exact pyStrip_ne_nil (c :: k') c (List.mem_cons_self c k') hns
  · cases hv : kv.2.reverse with
    | nil =>
      have hv2 : kv.2 = [] := by simpa using congrArg List.reverse hv
      rw [hv2] at hsplit
      have : (pyStrip seg).reverse = ' ' :: kv.1.reverse := by
        rw [hsplit]
        simp
      have := pyStrip_last_not_space seg ' ' kv.1.reverse this
      simp [isPySpace] at this
    | cons d w =>
      have hmem : d ∈ kv.2 := by
        rw [← List.mem_reverse, hv]
        exact List.mem_cons_self d w
      have hns : isPySpace d = false := by
        apply pyStrip_last_not_space seg d (w ++ ' ' :: kv.1.reverse)
        rw [hsplit]
        simp [hv]
      exact pyStrip_ne_nil kv.2 d hmem hns

/-- C7.  The source parser follows exactly the algorithm the spec states: on a
comma line, split on commas, split each (trimmed) segment at its first space
and keep only segments yielding two non-empty tokens as (name, value); on a
comma-free line, whitespace-tokenise and pair tokens consecutively, dropping a
trailing unpaired token; values stay raw strings.  Formally, the embedding of
the source (`parse_data_line`) coincides with the algorithm modelled from the
spec's words (`parse_spec`) on every input line. -/
theorem claim_C7_parser_algorithm (line : Str) :
    parse_data_line line = parse_spec line := by
  unfold parse_data_line parse_spec
  by_cases hc : ',' ∈ line
  · rw [if_pos hc, if_pos hc]
    have hfun : (fun (m : List (Str × Str)) seg =>
        match splitFirstSpace (pyStrip seg) with
        | some kv => alSet m (pyStrip kv.1) (pyStrip kv.2)
        | Option.none => m) =
        (fun (m : List (Str × Str)) seg =>
        match specSegment seg with
        | some kv => alSet m kv.1 kv.2
        | Option.none => m) := by
      funext m seg
      unfold specSegment
      cases h : splitFirstSpace (pyStrip seg) with
      | none => rfl
      | some kv =>
        obtain ⟨h1, h2⟩ := specSegment_nonempty seg kv h
        simp [h1, h2]
    rw [hfun]
  · rw [if_neg hc, if_neg hc]
